import Mathlib

/-!
Shallow embedding of the KeyString fixed-capacity string type of src/lib.rs.

Byte strings (Rust `&[u8]`, and the UTF-8 bytes of a Rust `&str`) are
modelled as `List Nat`; every byte of interest is below 256 and all the
operations of the source only compare bytes against constants, so `Nat`
entries are a faithful carrier.  A Rust `&str` argument is a byte list
together with the hypothesis `validUtf8 s = true` where a theorem needs it.
Fallible operations return `Except`/`Option`; a Rust panic (the `expect`
in `Display`, an out-of-bounds slice index write) is modelled as
`none`/`Except.error`.
-/

set_option maxRecDepth 10000

/-- A UTF-8 continuation byte: `0x80 ..= 0xBF`. -/
def cont (b : Nat) : Bool := decide (0x80 ≤ b) && decide (b ≤ 0xBF)

/-- UTF-8 validity of a byte sequence, exactly the byte-level table enforced
by Rust's `std::str::from_utf8`: ASCII below `0x80`; two-byte leads
`0xC2 ..= 0xDF`; three-byte leads `0xE0 ..= 0xEF` with the restricted second
byte for `0xE0` (no overlongs) and `0xED` (no surrogates); four-byte leads
`0xF0 ..= 0xF4` with the restricted second byte for `0xF0` and `0xF4`
(codepoints up to `0x10FFFF`); everything else is rejected. -/
def validUtf8 : List Nat → Bool
  | [] => true
  | b :: rest =>
    if b ≤ 0x7F then validUtf8 rest
    else if b < 0xC2 then false
    else if b ≤ 0xDF then
      match rest with
      | [] => false
      | c1 :: r => cont c1 && validUtf8 r
    else if b ≤ 0xEF then
      match rest with
      | c1 :: c2 :: r =>
          (if b == 0xE0 then decide (0xA0 ≤ c1) && decide (c1 ≤ 0xBF)
           else if b == 0xED then decide (0x80 ≤ c1) && decide (c1 ≤ 0x9F)
           else cont c1)
          && cont c2 && validUtf8 r
      | _ => false
    else if b ≤ 0xF4 then
      match rest with
      | c1 :: c2 :: c3 :: r =>
          (if b == 0xF0 then decide (0x90 ≤ c1) && decide (c1 ≤ 0xBF)
           else if b == 0xF4 then decide (0x80 ≤ c1) && decide (c1 ≤ 0x8F)
           else cont c1)
          && cont c2 && cont c3 && validUtf8 r
      | _ => false
    else false

/-- `pub struct KeyString { inner: [u8;64] }` (src/lib.rs:3-6).  The fixed
64-byte array is a byte list; theorems that need the capacity carry the
length as a hypothesis or use concrete 64-element lists. -/
structure KeyString where
  inner : List Nat
deriving DecidableEq

/-- `KeyString::new` (src/lib.rs:86-90): the all-zero buffer.  `Default`
produces the same value. -/
def KeyString.new : KeyString := ⟨List.replicate 64 0⟩

/-- The scan of `KeyString::len` (src/lib.rs:92-101): count bytes from the
front, breaking at the first zero byte. -/
def lenAux : List Nat → Nat
  | [] => 0
  | b :: rest => if b == 0 then 0 else lenAux rest + 1

/-- `KeyString::len` (src/lib.rs:92-101). -/
def KeyString.len (k : KeyString) : Nat := lenAux k.inner

/-- `KeyString::as_str` (src/lib.rs:122-125): the byte region
`inner[0..len()]` that the source decodes with `from_utf8_unchecked`.  The
model keeps the bytes themselves, since the unchecked decode can be handed
invalid UTF-8. -/
def KeyString.as_str (k : KeyString) : List Nat := k.inner.take k.len

/-- The validity-shrinking loop of `From<&str>` (src/lib.rs:36-42): starting
from `min`, decrement while the region `inner[0..min]` is not valid UTF-8
(stopping at 0).  In the source this loop only mutates the local `min`
after the bytes were already copied, and the constructed value does not
depend on its result. -/
def shrinkMin (inner : List Nat) : Nat → Nat
  | 0 => 0
  | m + 1 => if validUtf8 (inner.take (m + 1)) then m + 1 else shrinkMin inner m

/-- `From<&str> for KeyString` (src/lib.rs:28-49): copy the first
`min(s.len(), 64)` bytes into the zeroed buffer.  The shrink loop the
source runs afterwards (`shrinkMin`) adjusts only a local variable, so the
returned buffer is exactly the copied bytes plus zero padding. -/
def keyStringFromStr (s : List Nat) : KeyString :=
  let min0 := min s.length 64
  ⟨s.take min0 ++ List.replicate (64 - min0) 0⟩

/-- `TryFrom<&[u8]> for KeyString` (src/lib.rs:52-68): copy the first
`min(s.len(), 64)` bytes into the zeroed buffer, then validate the whole
64-byte buffer as UTF-8; `Err` (the source's `Utf8Error`, carried here as
`Unit`) exactly when that fails. -/
def keyStringTryFrom (s : List Nat) : Except Unit KeyString :=
  let min0 := min s.length 64
  let inner := s.take min0 ++ List.replicate (64 - min0) 0
  if validUtf8 inner then Except.ok ⟨inner⟩ else Except.error ()

/-- The derived `PartialEq` of `KeyString` (src/lib.rs:3): equality of the
raw 64-byte buffers. -/
def keyStringEq (a b : KeyString) : Bool := a.inner == b.inner

/-- Lexicographic byte comparison, the order `str::cmp` induces on the
UTF-8 bytes of two Rust strings. -/
def listCompare : List Nat → List Nat → Ordering
  | [], [] => Ordering.eq
  | [], _ :: _ => Ordering.lt
  | _ :: _, [] => Ordering.gt
  | a :: xs, b :: ys =>
    if a < b then Ordering.lt
    else if b < a then Ordering.gt
    else listCompare xs ys

/-- `Ord for KeyString` (src/lib.rs:72-76): `self.as_str().cmp(other.as_str())`. -/
def KeyString.cmp (a b : KeyString) : Ordering := listCompare a.as_str b.as_str

/-- The end-index scan of `KeyString::push` (src/lib.rs:109-114): iterate
over the whole buffer and set `end_index = index + 1` at every zero byte,
so the result is one past the last zero byte (0 if the buffer has no zero
byte). -/
def endIndexAux : List Nat → Nat → Nat → Nat
  | [], _, acc => acc
  | b :: rest, i, acc => endIndexAux rest (i + 1) (if b == 0 then i + 1 else acc)

/-- The write loop of `KeyString::push` (src/lib.rs:116-118):
`inner[index + end_index] = byte` for each byte of `s` in order.  An index
at or beyond the buffer length is an out-of-bounds array write, a Rust
panic, modelled as `none`. -/
def writeSeq : List Nat → Nat → List Nat → Option (List Nat)
  | inner, _, [] => some inner
  | inner, off, b :: rest =>
    if off < inner.length then writeSeq (inner.set off b) (off + 1) rest
    else none

/-- `KeyString::push` (src/lib.rs:103-120): silent no-op when
`len() + s.len() > 64`; otherwise write the bytes of `s` starting one past
the last zero byte of the buffer.  `none` models the panic of an
out-of-bounds write. -/
def KeyString.push (k : KeyString) (s : List Nat) : Option KeyString :=
  if 64 < k.len + s.length then some k
  else
    match writeSeq k.inner (endIndexAux k.inner 0 0) s with
    | some inner2 => some ⟨inner2⟩
    | none => none

/-- The first loop of `bytes_to_str` (src/lib.rs:162-168): advance over
leading zero bytes, counting them. -/
def countLeadingZeros : List Nat → Nat
  | [] => 0
  | b :: rest => if b != 0 then 0 else countLeadingZeros rest + 1

/-- `bytes_to_str` (src/lib.rs:157-188): skip leading zero bytes to find
`start`; return `Ok("")` on empty input or when `start >= len - 1`;
otherwise decode the span from `start` up to the next zero byte (or the
end), failing exactly when that span is not valid UTF-8. -/
def bytes_to_str (bytes : List Nat) : Except Unit (List Nat) :=
  let len := bytes.length
  let start := countLeadingZeros bytes
  if bytes.isEmpty then Except.ok []
  else if len - 1 ≤ start then Except.ok []
  else
    let span := (bytes.drop start).takeWhile (fun b => b != 0)
    if validUtf8 span then Except.ok span else Except.error ()

/-- `Display for KeyString` (src/lib.rs:14-19): render
`bytes_to_str(&self.inner)`, panicking (the `expect`) when it returns an
error; the panic is modelled as `none`. -/
def keyStringDisplay (k : KeyString) : Option (List Nat) :=
  match bytes_to_str k.inner with
  | Except.ok t => some t
  | Except.error _ => none

/-- A buffer in the shape invariant I1 of the spec takes for granted: the
logical content followed by nothing but zero padding, in a 64-byte buffer. -/
def canonical (k : KeyString) : Prop :=
  k.inner.length = 64 ∧ k.inner = k.as_str ++ List.replicate (64 - k.len) 0

instance (k : KeyString) : Decidable (canonical k) := by
  unfold canonical; infer_instance

/-- The 65-byte valid-UTF-8 string of 63 `a` bytes followed by the two-byte
character U+00E9: the 64-byte cut of `From<&str>` lands between its two
bytes. -/
def ex65 : List Nat := List.replicate 63 97 ++ [0xC3, 0xA9]

theorem lenAux_le_length (l : List Nat) : lenAux l ≤ l.length := by
  induction l with
  | nil => simp [lenAux]
  | cons b r ih =>
    simp only [lenAux, List.length_cons]
    split
    · omega
    · omega

theorem lenAux_append_of_ne_zero (s t : List Nat) (h : ∀ b ∈ s, b ≠ 0) :
    lenAux (s ++ t) = s.length + lenAux t := by
  induction s with
  | nil => simp
  | cons b s2 ih =>
    have hb : b ≠ 0 := h b (List.mem_cons_self b s2)
    have hb2 : (b == 0) = false := by simpa using hb
    simp only [List.cons_append, lenAux, hb2, List.length_cons, List.append_eq]
    rw [if_neg (by simp)]
    rw [ih (fun x hx => h x (List.mem_cons_of_mem b hx))]
    omega

theorem lenAux_replicate_zero (n : Nat) : lenAux (List.replicate n 0) = 0 := by
  cases n with
  | zero => rfl
  | succ m => simp [List.replicate, lenAux]

theorem as_str_length (k : KeyString) : k.as_str.length = k.len := by
  simp only [KeyString.as_str, List.length_take]
  exact Nat.min_eq_left (lenAux_le_length k.inner)

theorem mem_take_lenAux_ne_zero (l : List Nat) (x : Nat)
    (hx : x ∈ l.take (lenAux l)) : x ≠ 0 := by
  induction l with
  | nil => simp [lenAux] at hx
  | cons b r ih =>
    by_cases hb : b = 0
    · simp [lenAux, hb] at hx
    · have hb2 : (b == 0) = false := by simpa using hb
      simp only [lenAux, hb2, Bool.false_eq_true, if_false, List.take_succ_cons,
        List.mem_cons] at hx
      rcases hx with rfl | hx2
      · exact hb
      · exact ih hx2

theorem take_append_self (s t : List Nat) : (s ++ t).take s.length = s := by
  induction s with
  | nil => simp
  | cons b s2 ih => simp [ih]

theorem countLeadingZeros_eq_findIdx (l : List Nat) :
    countLeadingZeros l = List.findIdx (fun b => b != 0) l := by
  induction l with
  | nil => rfl
  | cons b r ih =>
    simp only [countLeadingZeros, List.findIdx_cons]
    cases hb : (b != 0) <;> simp [hb, ih]

theorem takeWhile_ne_zero_eq_take_findIdx (l : List Nat) :
    l.takeWhile (fun b => b != 0) = l.take (List.findIdx (fun b => b == 0) l) := by
  induction l with
  | nil => rfl
  | cons b r ih =>
    by_cases hb : b = 0
    · simp [List.takeWhile_cons, List.findIdx_cons, hb]
    · have hb1 : (b != 0) = true := by simpa using hb
      have hb2 : (b == 0) = false := by simpa using hb
      simp [List.takeWhile_cons, List.findIdx_cons, hb1, hb2, ih]

theorem takeWhile_ne_zero_append (s t : List Nat) (h : ∀ b ∈ s, b ≠ 0) :
    (s ++ t).takeWhile (fun b => b != 0) = s ++ t.takeWhile (fun b => b != 0) := by
  induction s with
  | nil => simp
  | cons b s2 ih =>
    have hb : (b != 0) = true := by simpa using h b (List.mem_cons_self b s2)
    simp only [List.cons_append, List.takeWhile_cons, hb, if_true]
    rw [ih (fun x hx => h x (List.mem_cons_of_mem b hx))]

theorem takeWhile_ne_zero_replicate_zero (n : Nat) :
    (List.replicate n 0).takeWhile (fun b => b != 0) = [] := by
  cases n with
  | zero => rfl
  | succ m => simp [List.replicate, List.takeWhile_cons]

theorem listCompare_eq_iff (x y : List Nat) :
    listCompare x y = Ordering.eq ↔ x = y := by
  induction x generalizing y with
  | nil => cases y <;> simp [listCompare]
  | cons a xs ih =>
    cases y with
    | nil => simp [listCompare]
    | cons b ys =>
      simp only [listCompare]
      by_cases h1 : a < b
      · simp only [h1, if_true]
        constructor
        · intro h; cases h
        · intro h
          have : a = b := (List.cons.injEq a xs b ys ▸ h).1
          omega
      · by_cases h2 : b < a
        · simp only [h1, if_false, h2, if_true]
          constructor
          · intro h; cases h
          · intro h
            have : a = b := (List.cons.injEq a xs b ys ▸ h).1
            omega
        · have hab : a = b := by omega
          simp [h1, h2, hab, ih]

/-- C9: when the logical length plus the length of the pushed string
exceeds 64, `push` returns immediately: no error, and the buffer — hence
the logical content and logical length — is unchanged. -/
theorem push_overflow_is_silent_noop (k : KeyString) (s : List Nat)
    (h : 64 < k.len + s.length) : k.push s = some k := by
  simp [KeyString.push, h]

/-- Witness for C9 at a full buffer and a one-byte string. -/
theorem push_overflow_is_silent_noop_witness :
    64 < (KeyString.mk (List.replicate 64 97)).len + [97].length ∧
      (KeyString.mk (List.replicate 64 97)).push [97] =
        some (KeyString.mk (List.replicate 64 97)) :=
  ⟨by decide, push_overflow_is_silent_noop ⟨List.replicate 64 97⟩ [97] (by decide)⟩

/-- C10: every one-byte input makes the `start >= len - 1` guard of
`bytes_to_str` fire (`len - 1 = 0`), so the single byte is dropped and the
result is `Ok("")` even for a non-zero byte. -/
theorem bytes_to_str_singleton_empty (b : Nat) : bytes_to_str [b] = Except.ok [] := by
  simp [bytes_to_str]

/-- C1: the claim expects `push` to append within capacity, writing at the
first zero byte.  On the all-zero `new()` value and the one-byte string
"a" the capacity check passes (`0 + 1 ≤ 64`), but the end-index scan
yields 64 (one past the last zero byte), so the write `inner[64]` is out
of bounds: the call panics instead of appending. -/
theorem push_new_panics :
    KeyString.new.len + [97].length ≤ 64 ∧ KeyString.new.push [97] = none := by
  constructor
  · decide
  · decide

/-- C2: invariant I1 fails on a reachable value.  `From<&str>` applied to
the valid 65-byte string `ex65` cuts between the two bytes of its final
character; the shrink loop adjusts only a local variable and the copied
lead byte `0xC3` is never zeroed, so the buffer has no zero byte, the
logical length is 64, and the logical content — here the whole buffer —
is not valid UTF-8, making `as_str`'s unchecked decode unsound. -/
theorem fromStr_breaks_utf8_invariant :
    validUtf8 ex65 = true ∧ (keyStringFromStr ex65).len = 64 ∧
      validUtf8 ((keyStringFromStr ex65).as_str) = false := by
  refine ⟨by decide, by decide, by decide⟩

/-- C3 (amended): the round-trip through `From<&str>` and `as_str` returns
the input exactly for valid UTF-8 inputs of at most 64 bytes that contain
no zero byte. -/
theorem fromStr_as_str_roundtrip (s : List Nat) (hv : validUtf8 s = true)
    (hlen : s.length ≤ 64) (hnz : ∀ b ∈ s, b ≠ 0) :
    (keyStringFromStr s).as_str = s := by
  have hmin : min s.length 64 = s.length := Nat.min_eq_left hlen
  have htake : s.take (min s.length 64) = s := by
    rw [hmin]; exact List.take_length s
  have hlenEq : (keyStringFromStr s).len = s.length := by
    simp only [KeyString.len, keyStringFromStr, htake]
    rw [lenAux_append_of_ne_zero s _ hnz, lenAux_replicate_zero]
    omega
  simp only [KeyString.as_str, keyStringFromStr, htake] at hlenEq ⊢
  rw [hlenEq, take_append_self]

/-- C3 counterexample: the claim as stated fails for the valid 3-byte
string with an interior zero byte: the logical content stops at the first
zero byte, so `as_str` returns only the first byte. -/
theorem fromStr_as_str_roundtrip_cex :
    validUtf8 [97, 0, 98] = true ∧ ([97, 0, 98] : List Nat).length ≤ 64 ∧
      (keyStringFromStr [97, 0, 98]).as_str ≠ [97, 0, 98] := by
  refine ⟨by decide, by decide, by decide⟩

/-- Witness for the amended C3 at the two-byte string "hi". -/
theorem fromStr_as_str_roundtrip_witness :
    validUtf8 [104, 105] = true ∧ (keyStringFromStr [104, 105]).as_str = [104, 105] :=
  ⟨by decide, fromStr_as_str_roundtrip [104, 105] (by decide) (by decide) (by decide)⟩

/-- C4: on the valid 65-byte input `ex65` the logical text of the
truncating construction is the raw 64-byte cut, which is not valid UTF-8 —
while the shrink computation the source discards would have found the
valid 63-byte cut the claim promises. -/
theorem fromStr_truncation_not_valid :
    validUtf8 ex65 = true ∧ ex65.length = 65 ∧
      (keyStringFromStr ex65).as_str = ex65.take 64 ∧
      validUtf8 (ex65.take 64) = false ∧
      shrinkMin (ex65.take 64) 64 = 63 ∧
      validUtf8 ((ex65.take 64).take 63) = true := by
  refine ⟨by decide, by decide, by decide, by decide, by decide, by decide⟩

theorem take_min64 (s : List Nat) : s.take (min s.length 64) = s.take 64 := by
  rcases Nat.le_total s.length 64 with h | h
  · have hm : min s.length 64 = s.length := by omega
    rw [hm, List.take_length, List.take_of_length_le h]
  · have hm : min s.length 64 = 64 := by omega
    rw [hm]

/-- C6: `TryFrom<&[u8]>` copies at most the first 64 bytes of the slice
into the zeroed 64-byte buffer, fails exactly when that whole zero-padded
buffer is not valid UTF-8, and on success returns the value carrying that
buffer. -/
theorem tryFrom_error_iff (s : List Nat) :
    (keyStringTryFrom s = Except.error () ↔
      validUtf8 (s.take 64 ++ List.replicate (64 - min s.length 64) 0) = false) ∧
    (validUtf8 (s.take 64 ++ List.replicate (64 - min s.length 64) 0) = true →
      keyStringTryFrom s =
        Except.ok ⟨s.take 64 ++ List.replicate (64 - min s.length 64) 0⟩) := by
  have ht := take_min64 s
  by_cases hv : validUtf8 (s.take 64 ++ List.replicate (64 - min s.length 64) 0) = true
  · simp [keyStringTryFrom, ht, hv]
  · have hv2 : validUtf8 (s.take 64 ++ List.replicate (64 - min s.length 64) 0) = false := by
      simpa using hv
    simp [keyStringTryFrom, ht, hv2]

/-- Witness for C6 at the byte slice "foo". -/
theorem tryFrom_error_iff_witness :
    validUtf8 ([102, 111, 111].take 64 ++ List.replicate (64 - min 3 64) 0) = true ∧
      keyStringTryFrom [102, 111, 111] =
        Except.ok ⟨[102, 111, 111].take 64 ++ List.replicate (64 - min 3 64) 0⟩ := by
  refine ⟨by decide, ?_⟩
  exact (tryFrom_error_iff [102, 111, 111]).2 (by decide)

/-- C5 counterexample: two values reachable through `TryFrom<&[u8]>` whose
logical texts are both "foo" while their raw buffers differ (the second
buries the byte `x` behind the first zero byte).  The derived `PartialEq`
compares raw buffers, so `a == b` is false although `as_str` agrees and
`cmp` returns `Equal`: equality is not defined on logical content and the
ordering is not consistent with equality. -/
theorem keyString_eq_not_logical_cex :
    keyStringTryFrom [102, 111, 111] =
        Except.ok ⟨[102, 111, 111] ++ List.replicate 61 0⟩ ∧
      keyStringTryFrom [102, 111, 111, 0, 120] =
        Except.ok ⟨[102, 111, 111, 0, 120] ++ List.replicate 59 0⟩ ∧
      (KeyString.mk ([102, 111, 111] ++ List.replicate 61 0)).as_str =
        (KeyString.mk ([102, 111, 111, 0, 120] ++ List.replicate 59 0)).as_str ∧
      keyStringEq ⟨[102, 111, 111] ++ List.replicate 61 0⟩
        ⟨[102, 111, 111, 0, 120] ++ List.replicate 59 0⟩ = false ∧
      KeyString.cmp ⟨[102, 111, 111] ++ List.replicate 61 0⟩
        ⟨[102, 111, 111, 0, 120] ++ List.replicate 59 0⟩ = Ordering.eq := by
  refine ⟨by rfl, by rfl, by decide, by decide, by decide⟩

/-- C5 (amended): for buffers in canonical shape — logical content followed
by nothing but zero padding — the derived raw-buffer equality coincides
with equality of the logical texts, `cmp` is the lexicographic order of
the logical texts, and `cmp` returns `Equal` exactly on equal values. -/
theorem keyString_eq_iff_logical_of_canonical (a b : KeyString)
    (ha : canonical a) (hb : canonical b) :
    (keyStringEq a b = true ↔ a.as_str = b.as_str) ∧
      KeyString.cmp a b = listCompare a.as_str b.as_str ∧
      (KeyString.cmp a b = Ordering.eq ↔ keyStringEq a b = true) := by
  have h1 : keyStringEq a b = true ↔ a.inner = b.inner := by
    simp [keyStringEq]
  have h2 : a.as_str = b.as_str → a.inner = b.inner := by
    intro hs
    have hlen : a.len = b.len := by
      rw [← as_str_length a, ← as_str_length b, hs]
    rw [ha.2, hb.2, hs, hlen]
  have h3 : a.inner = b.inner → a.as_str = b.as_str := by
    intro hi
    have hlen : a.len = b.len := by simp [KeyString.len, hi]
    simp [KeyString.as_str, hi, hlen]
  have hiff : keyStringEq a b = true ↔ a.as_str = b.as_str := by
    rw [h1]; exact ⟨h3, h2⟩
  refine ⟨hiff, rfl, ?_⟩
  show listCompare a.as_str b.as_str = Ordering.eq ↔ keyStringEq a b = true
  rw [listCompare_eq_iff]
  exact hiff.symm

/-- Witness for the amended C5 at two distinct canonical one-byte values. -/
theorem keyString_eq_iff_logical_of_canonical_witness :
    canonical ⟨[102] ++ List.replicate 63 0⟩ ∧
      (keyStringEq ⟨[102] ++ List.replicate 63 0⟩ ⟨[103] ++ List.replicate 63 0⟩ = true ↔
        (KeyString.mk ([102] ++ List.replicate 63 0)).as_str =
          (KeyString.mk ([103] ++ List.replicate 63 0)).as_str) :=
  ⟨by decide,
    (keyString_eq_iff_logical_of_canonical ⟨[102] ++ List.replicate 63 0⟩
      ⟨[103] ++ List.replicate 63 0⟩ (by decide) (by decide)).1⟩

theorem bytes_to_str_canonical (w : List Nat) (n : Nat) (hlen : w.length + n = 64)
    (hnz : ∀ x ∈ w, x ≠ 0) (hv : validUtf8 w = true) :
    bytes_to_str (w ++ List.replicate n 0) = Except.ok w := by
  cases w with
  | nil =>
    have hn : n = 64 := by simpa using hlen
    subst hn
    rfl
  | cons b w2 =>
    have hb : (b != 0) = true := by simpa using hnz b (List.mem_cons_self b w2)
    have hlen2 : ((b :: w2) ++ List.replicate n 0).length = 64 := by
      simp only [List.length_append, List.length_replicate]
      omega
    have hclz : countLeadingZeros ((b :: w2) ++ List.replicate n 0) = 0 := by
      simp [List.cons_append, countLeadingZeros, hb]
    have hspan : ((b :: w2) ++ List.replicate n 0).takeWhile (fun x => x != 0) = b :: w2 := by
      rw [takeWhile_ne_zero_append _ _ hnz, takeWhile_ne_zero_replicate_zero,
        List.append_nil]
    simp only [bytes_to_str, hclz, hlen2]
    rw [if_neg (by simp), if_neg (by omega)]
    simp only [List.drop_zero, hspan, hv, if_true]

/-- C7 counterexample: the value built by `TryFrom<&[u8]>` from two zero
bytes followed by "key" has empty logical text (`as_str` stops at the
first, leading zero byte), but `Display` goes through `bytes_to_str`,
which skips leading zeros and renders "key". -/
theorem display_ne_as_str_cex :
    keyStringTryFrom [0, 0, 107, 101, 121] =
        Except.ok ⟨[0, 0, 107, 101, 121] ++ List.replicate 59 0⟩ ∧
      keyStringDisplay ⟨[0, 0, 107, 101, 121] ++ List.replicate 59 0⟩ =
        some [107, 101, 121] ∧
      (KeyString.mk ([0, 0, 107, 101, 121] ++ List.replicate 59 0)).as_str = [] ∧
      keyStringDisplay ⟨[0, 0, 107, 101, 121] ++ List.replicate 59 0⟩ ≠
        some ((KeyString.mk ([0, 0, 107, 101, 121] ++ List.replicate 59 0)).as_str) := by
  refine ⟨by rfl, by decide, by decide, by decide⟩

/-- C7 (amended): for every KeyString whose buffer is in canonical shape —
the logical content followed by nothing but zero padding — and whose
logical content is valid UTF-8, `Display` does not fail and renders
exactly the logical text `as_str`. -/
theorem display_eq_as_str_of_canonical (k : KeyString) (hc : canonical k)
    (hv : validUtf8 k.as_str = true) : keyStringDisplay k = some k.as_str := by
  have hlenle : k.len ≤ 64 := by
    have h0 := lenAux_le_length k.inner
    rw [hc.1] at h0
    exact h0
  have hwlen : k.as_str.length = k.len := as_str_length k
  have hnz : ∀ x ∈ k.as_str, x ≠ 0 := fun x hx => mem_take_lenAux_ne_zero k.inner x hx
  have h := bytes_to_str_canonical k.as_str (64 - k.len) (by omega) hnz hv
  simp only [keyStringDisplay]
  rw [hc.2, h]

/-- Witness for the amended C7 at the canonical value holding "hi". -/
theorem display_eq_as_str_of_canonical_witness :
    canonical ⟨[104, 105] ++ List.replicate 62 0⟩ ∧
      keyStringDisplay ⟨[104, 105] ++ List.replicate 62 0⟩ =
        some ((KeyString.mk ([104, 105] ++ List.replicate 62 0)).as_str) :=
  ⟨by decide,
    display_eq_as_str_of_canonical ⟨[104, 105] ++ List.replicate 62 0⟩
      (by decide) (by decide)⟩

/-- C8: `bytes_to_str` implements exactly the claimed rules: empty input
gives `Ok("")`; writing `start` for the number of leading zero bytes (the
index of the first non-zero byte, or the length), `start >= len - 1` gives
`Ok("")`; otherwise the result is the decode of the span from `start` to
the first zero byte at or after `start` (or the end), failing exactly when
that span is not valid UTF-8; and on the slice of two zero bytes, "key",
and three zero bytes it returns "key". -/
theorem bytes_to_str_spec (bytes : List Nat) :
    (bytes = [] → bytes_to_str bytes = Except.ok []) ∧
      (bytes ≠ [] → bytes.length - 1 ≤ List.findIdx (fun b => b != 0) bytes →
        bytes_to_str bytes = Except.ok []) ∧
      (bytes ≠ [] → List.findIdx (fun b => b != 0) bytes < bytes.length - 1 →
        bytes_to_str bytes =
          (if validUtf8 ((bytes.drop (List.findIdx (fun b => b != 0) bytes)).take
              (List.findIdx (fun b => b == 0)
                (bytes.drop (List.findIdx (fun b => b != 0) bytes)))) = true
           then Except.ok ((bytes.drop (List.findIdx (fun b => b != 0) bytes)).take
              (List.findIdx (fun b => b == 0)
                (bytes.drop (List.findIdx (fun b => b != 0) bytes))))
           else Except.error ())) ∧
      bytes_to_str [0, 0, 107, 101, 121, 0, 0, 0] = Except.ok [107, 101, 121] := by
  refine ⟨?_, ?_, ?_, by rfl⟩
  · intro h; subst h; rfl
  · intro hne hge
    have hisE : bytes.isEmpty = false := by
      cases bytes with
      | nil => exact absurd rfl hne
      | cons c r => rfl
    rw [← countLeadingZeros_eq_findIdx] at hge
    simp only [bytes_to_str, hisE, Bool.false_eq_true, if_false]
    rw [if_pos hge]
  · intro hne hlt
    have hisE : bytes.isEmpty = false := by
      cases bytes with
      | nil => exact absurd rfl hne
      | cons c r => rfl
    rw [← countLeadingZeros_eq_findIdx] at hlt
    simp only [bytes_to_str, hisE, Bool.false_eq_true, if_false]
    rw [if_neg (by omega)]
    rw [← countLeadingZeros_eq_findIdx, ← takeWhile_ne_zero_eq_take_findIdx]

/-- Witness for C8 on the non-empty slice of the claim's example. -/
theorem bytes_to_str_spec_witness :
    ([0, 0, 107, 101, 121, 0, 0, 0] : List Nat) ≠ [] ∧
      bytes_to_str [0, 0, 107, 101, 121, 0, 0, 0] = Except.ok [107, 101, 121] := by
  refine ⟨by decide, ?_⟩
  have h := (bytes_to_str_spec [0, 0, 107, 101, 121, 0, 0, 0]).2.2.1
    (by decide) (by decide)
  rw [h]
  rfl
